import Mathlib

set_option linter.unusedSectionVars false
set_option linter.unusedVariables false

/-!
Shallow embedding of the `multi-index` container library (`src/index.ts`):
a `Container` holds a master set of values together with a list of attached
index keepers (unique and non-unique indices), runs the two-phase
add/delete protocol across them, and attaches late indices by backfilling
(`Container.use`).

Modelling choices.  JavaScript `Map` is an insertion-ordered association
list whose operations keep keys pairwise distinct; `Set` is an
insertion-ordered duplicate-free list.  Values of type `T` stand for object
references: equality on `T` models JavaScript reference identity
(`Object.is`), so two structurally equal but distinct objects are two
distinct elements of `T`.  Exceptions are modelled with `Except`; where the
source mutates state in place, the error value carries the state as it
stood at the throw point, so atomicity statements are about real program
behaviour rather than true by construction.
-/

namespace MultiIndex

variable {T K V : Type}

/-- JS `Map.prototype.has`: does some entry have key `k`? -/
def mapHas [DecidableEq K] : List (K × V) → K → Bool
  | [], _ => false
  | p :: m, k => if p.1 = k then true else mapHas m k

/-- JS `Map.prototype.get`: first (with distinct keys, only) entry at `k`. -/
def mapGet [DecidableEq K] : List (K × V) → K → Option V
  | [], _ => none
  | p :: m, k => if p.1 = k then some p.2 else mapGet m k

/-- JS `Map.prototype.set`: replace the entry at `k` in place, or append a
new entry when `k` is absent. -/
def mapSet [DecidableEq K] (m : List (K × V)) (k : K) (v : V) : List (K × V) :=
  if mapHas m k then m.map (fun p => if p.1 = k then (k, v) else p) else m ++ [(k, v)]

/-- JS `Map.prototype.delete`: drop the entry at `k`. -/
def mapDelete [DecidableEq K] (m : List (K × V)) (k : K) : List (K × V) :=
  m.filter (fun p => decide (p.1 ≠ k))

/-- JS `Set.prototype.has` (membership by reference identity). -/
def setHas [DecidableEq T] (s : List T) (x : T) : Bool :=
  decide (x ∈ s)

/-- JS `Set.prototype.add`: append `x` unless already present. -/
def setAdd [DecidableEq T] (s : List T) (x : T) : List T :=
  if x ∈ s then s else s ++ [x]

/-- JS `Set.prototype.delete`: remove `x`. -/
def setDelete [DecidableEq T] (s : List T) (x : T) : List T :=
  s.filter (fun y => decide (y ≠ x))

/-- Error taxonomy of `src/index.ts`.  `nonuniqueIndexError` and
`missingKeyError` model the classes `NonuniqueIndexError` and
`MissingKeyError` (both extending the abstract class `IndexError`) with
their `value`, `key` and optional `indexName` fields; `genericError` models
a plain `new Error(...)` (the message string is elided). -/
inductive ContainerError (T K : Type) where
  | nonuniqueIndexError (value : T) (key : K) (indexName : Option String)
  | missingKeyError (value : T) (key : K) (indexName : Option String)
  | genericError
  deriving DecidableEq

/-- Does the error extend the abstract class `IndexError`? -/
def ContainerError.isIndexError : ContainerError T K → Bool
  | .nonuniqueIndexError .. => true
  | .missingKeyError .. => true
  | .genericError => false

/-- The two concrete `IndexKeeper<T>` subclasses of `src/index.ts`:
`UniqueIndex` with backing `Map<K, T>` and `NonuniqueIndex` with backing
`Map<K, Set<T>>`.  Each carries its key-extraction function `computeKey`,
its optional diagnostic `name`, and its backing map `access`. -/
inductive IndexKeeper (T K : Type) where
  | unique (computeKey : T → K) (name : Option String) (access : List (K × T))
  | nonunique (computeKey : T → K) (name : Option String) (access : List (K × List T))

/-- Key-extraction function of an index keeper. -/
def IndexKeeper.computeKey : IndexKeeper T K → T → K
  | .unique ck _ _, v => ck v
  | .nonunique ck _ _, v => ck v

/-- Is this the `UniqueIndex` variant? -/
def IndexKeeper.isUnique : IndexKeeper T K → Bool
  | .unique .. => true
  | .nonunique .. => false

/-- Is the backing map empty?  Holds of the keepers freshly constructed by
the factories `uniqueIndex` / `nonuniqueIndex`. -/
def IndexKeeper.isFresh : IndexKeeper T K → Prop
  | .unique _ _ access => access = []
  | .nonunique _ _ access => access = []

/-- Does the backing map contain an entry for `k`? -/
def IndexKeeper.hasKey [DecidableEq K] : IndexKeeper T K → K → Bool
  | .unique _ _ access, k => mapHas access k
  | .nonunique _ _ access, k => mapHas access k

/-- Method `prepareAdd` — `UniqueIndex` throws `NonuniqueIndexError` when
the key is already present; `NonuniqueIndex` inherits the base class no-op.
The result carries the (unchanged) keeper, mirroring the in-place `this`. -/
def IndexKeeper.prepareAdd [DecidableEq K] :
    IndexKeeper T K → K → T → Except (ContainerError T K) (IndexKeeper T K)
  | .unique ck name access, key, value =>
      if mapHas access key then .error (.nonuniqueIndexError value key name)
      else .ok (.unique ck name access)
  | .nonunique ck name access, _, _ => .ok (.nonunique ck name access)

/-- Method `add` — `UniqueIndex` sets `access.set(key, value)`;
`NonuniqueIndex` fetches the bucket (creating an empty one when absent) and
inserts `value` into it. -/
def IndexKeeper.add [DecidableEq T] [DecidableEq K] :
    IndexKeeper T K → K → T → IndexKeeper T K
  | .unique ck name access, key, value => .unique ck name (mapSet access key value)
  | .nonunique ck name access, key, value =>
      .nonunique ck name (mapSet access key (setAdd ((mapGet access key).getD []) value))

/-- Method `prepareDelete` — `UniqueIndex` throws `MissingKeyError` when
the key is absent; `NonuniqueIndex` throws `MissingKeyError` when the key
is absent and a plain `Error` when the bucket lacks `value`. -/
def IndexKeeper.prepareDelete [DecidableEq T] [DecidableEq K] :
    IndexKeeper T K → K → T → Except (ContainerError T K) (IndexKeeper T K)
  | .unique ck name access, key, value =>
      if mapHas access key then .ok (.unique ck name access)
      else .error (.missingKeyError value key name)
  | .nonunique ck name access, key, value =>
      match mapGet access key with
      | none => .error (.missingKeyError value key name)
      | some values =>
          if setHas values value then .ok (.nonunique ck name access)
          else .error .genericError

/-- Method `delete` — `UniqueIndex` drops the key; `NonuniqueIndex` removes
`value` from the bucket and drops the bucket once empty.  When the key is
absent on a non-unique keeper the source dereferences `undefined`
(`this.access.get(key)!`) and crashes; `Container.delete` never reaches
that case because `prepareDelete` runs first, and we return the keeper
unchanged there. -/
def IndexKeeper.delete [DecidableEq T] [DecidableEq K] :
    IndexKeeper T K → K → T → IndexKeeper T K
  | .unique ck name access, key, _ => .unique ck name (mapDelete access key)
  | .nonunique ck name access, key, value =>
      match mapGet access key with
      | none => .nonunique ck name access
      | some values =>
          let s := setDelete values value
          if s = [] then .nonunique ck name (mapDelete access key)
          else .nonunique ck name (mapSet access key s)

/-- Class `Container<T>`: the master value set `objects` (a JS `Set`, in
insertion order) and the attached keepers `indices` (a JS array, in
attachment order). -/
structure Container (T K : Type) where
  objects : List T
  indices : List (IndexKeeper T K)

/-- Container freshly built by `new Container<T>()`. -/
def Container.empty : Container T K := ⟨[], []⟩

/-- Backfill loop of `Container.use`: walk the current values in insertion
order, calling `prepareAdd` then `add` on the new keeper.  An error carries
the keeper as mutated so far (the source leaves it inconsistent). -/
def backfillLoop [DecidableEq T] [DecidableEq K] (idx : IndexKeeper T K) :
    List T → Except (ContainerError T K × IndexKeeper T K) (IndexKeeper T K)
  | [] => .ok idx
  | v :: vs =>
    match idx.prepareAdd (idx.computeKey v) v with
    | .error e => .error (e, idx)
    | .ok idx1 => backfillLoop (idx1.add (idx.computeKey v) v) vs

/-- Method `Container.use`: backfill the new keeper over the current
values; on success push it onto `indices`.  On failure the error carries
the container (untouched by the loop) and the partially built keeper. -/
def Container.use [DecidableEq T] [DecidableEq K] (c : Container T K) (idx : IndexKeeper T K) :
    Except (ContainerError T K × Container T K × IndexKeeper T K) (Container T K) :=
  match backfillLoop idx c.objects with
  | .error ej => .error (ej.1, c, ej.2)
  | .ok idx1 => .ok { c with indices := c.indices ++ [idx1] }

/-- First loop of `Container.add`: `prepareAdd` on every keeper in
attachment order.  An error carries the keepers as they stood at the throw
(the keepers before the failing one already returned from `prepareAdd`).
The keys are computed once up front in the source; since `computeKey` is a
pure Lean function and `prepareAdd` returns the keeper unchanged,
recomputing `i.computeKey v` at each step is equivalent. -/
def prepareAddLoop [DecidableEq K] (v : T) :
    List (IndexKeeper T K) →
    Except (ContainerError T K × List (IndexKeeper T K)) (List (IndexKeeper T K))
  | [] => .ok []
  | i :: is =>
    match i.prepareAdd (i.computeKey v) v with
    | .error e => .error (e, i :: is)
    | .ok i1 =>
      match prepareAddLoop v is with
      | .error ejs => .error (ejs.1, i1 :: ejs.2)
      | .ok js => .ok (i1 :: js)

/-- Method `Container.add`: run `prepareAdd` on every keeper, propagating
the first failure with the state at the throw point; only when all succeed
run `add` on every keeper and insert the value into the master set. -/
def Container.add [DecidableEq T] [DecidableEq K] (c : Container T K) (v : T) :
    Except (ContainerError T K × Container T K) (Container T K) :=
  match prepareAddLoop v c.indices with
  | .error ejs => .error (ejs.1, { c with indices := ejs.2 })
  | .ok js => .ok { objects := setAdd c.objects v,
                    indices := js.map (fun i => i.add (i.computeKey v) v) }

/-- First loop of `Container.delete`: `prepareDelete` on every keeper. -/
def prepareDeleteLoop [DecidableEq T] [DecidableEq K] (v : T) :
    List (IndexKeeper T K) →
    Except (ContainerError T K × List (IndexKeeper T K)) (List (IndexKeeper T K))
  | [] => .ok []
  | i :: is =>
    match i.prepareDelete (i.computeKey v) v with
    | .error e => .error (e, i :: is)
    | .ok i1 =>
      match prepareDeleteLoop v is with
      | .error ejs => .error (ejs.1, i1 :: ejs.2)
      | .ok js => .ok (i1 :: js)

/-- Method `Container.delete`: return `false` at once when the value is not
a member (by identity) of the master set; otherwise run `prepareDelete` on
every keeper, then `delete` on every keeper, remove the value and return
`true`. -/
def Container.delete [DecidableEq T] [DecidableEq K] (c : Container T K) (v : T) :
    Except (ContainerError T K × Container T K) (Bool × Container T K) :=
  if setHas c.objects v then
    match prepareDeleteLoop v c.indices with
    | .error ejs => .error (ejs.1, { c with indices := ejs.2 })
    | .ok js => .ok (true, { objects := setDelete c.objects v,
                             indices := js.map (fun i => i.delete (i.computeKey v) v) })
  else .ok (false, c)

/-- Iterated `Container.add` over a list of values, stopping at the first
failure (used to state the order-independence of late attachment). -/
def Container.addAll [DecidableEq T] [DecidableEq K] (c : Container T K) :
    List T → Except (ContainerError T K × Container T K) (Container T K)
  | [] => .ok c
  | v :: vs =>
    match c.add v with
    | .error e => .error e
    | .ok c1 => c1.addAll vs

section MapSetLemmas

variable [DecidableEq T] [DecidableEq K]

@[simp]
theorem mapHas_nil (k : K) : mapHas ([] : List (K × V)) k = false := rfl

@[simp]
theorem mapHas_cons (p : K × V) (m : List (K × V)) (k : K) :
    mapHas (p :: m) k = (if p.1 = k then true else mapHas m k) := rfl

theorem mapHas_iff_exists (m : List (K × V)) (k : K) :
    mapHas m k = true ↔ ∃ p ∈ m, p.1 = k := by
  induction m with
  | nil => simp
  | cons p m ih =>
    simp only [mapHas_cons, List.mem_cons]
    by_cases h : p.1 = k
    · simp only [h, if_pos]
      constructor
      · intro _
        exact ⟨p, Or.inl rfl, h⟩
      · intro _
        trivial
    · rw [if_neg h, ih]
      constructor
      · rintro ⟨q, hq, hqk⟩
        exact ⟨q, Or.inr hq, hqk⟩
      · rintro ⟨q, (rfl | hq), hqk⟩
        · exact absurd hqk h
        · exact ⟨q, hq, hqk⟩

theorem mapHas_iff_mem_keys (m : List (K × V)) (k : K) :
    mapHas m k = true ↔ k ∈ m.map Prod.fst := by
  rw [mapHas_iff_exists]
  constructor
  · rintro ⟨p, hp, rfl⟩
    exact List.mem_map.2 ⟨p, hp, rfl⟩
  · intro h
    obtain ⟨p, hp, rfl⟩ := List.mem_map.1 h
    exact ⟨p, hp, rfl⟩

theorem mapHas_eq_false_iff (m : List (K × V)) (k : K) :
    mapHas m k = false ↔ ∀ p ∈ m, p.1 ≠ k := by
  constructor
  · intro h p hp hk
    have ht : mapHas m k = true := (mapHas_iff_exists m k).2 ⟨p, hp, hk⟩
    rw [h] at ht
    exact Bool.false_ne_true ht
  · intro h
    cases hb : mapHas m k with
    | false => rfl
    | true =>
      obtain ⟨p, hp, hk⟩ := (mapHas_iff_exists m k).1 hb
      exact absurd hk (h p hp)

@[simp]
theorem mapGet_nil (k : K) : mapGet ([] : List (K × V)) k = none := rfl

@[simp]
theorem mapGet_cons (p : K × V) (m : List (K × V)) (k : K) :
    mapGet (p :: m) k = (if p.1 = k then some p.2 else mapGet m k) := rfl

theorem mapGet_eq_none_iff (m : List (K × V)) (k : K) :
    mapGet m k = none ↔ mapHas m k = false := by
  induction m with
  | nil => simp
  | cons p m ih => by_cases h : p.1 = k <;> simp [h, ih]

theorem mapGet_mem (m : List (K × V)) (k : K) (v : V) (h : mapGet m k = some v) :
    (k, v) ∈ m := by
  induction m with
  | nil => simp at h
  | cons p m ih =>
    obtain ⟨pk, pv⟩ := p
    by_cases hp : pk = k
    · subst hp
      simp only [mapGet_cons, if_pos] at h
      injection h with h
      subst h
      exact List.mem_cons_self _ _
    · rw [mapGet_cons, if_neg hp] at h
      exact List.mem_cons_of_mem _ (ih h)

/-- A map is well-formed when its keys are pairwise distinct; every JS
`Map` satisfies this and the operations preserve it. -/
def keysNodup (m : List (K × V)) : Prop := (m.map Prod.fst).Nodup

theorem mapGet_eq_some_of_mem (m : List (K × V)) (k : K) (v : V)
    (hnd : keysNodup m) (h : (k, v) ∈ m) : mapGet m k = some v := by
  induction m with
  | nil => simp at h
  | cons p m ih =>
    rcases List.mem_cons.1 h with rfl | hm
    · simp
    · have hnd1 : keysNodup m := (List.nodup_cons.1 hnd).2
      have hp : p.1 ≠ k := by
        rintro rfl
        exact (List.nodup_cons.1 hnd).1 (List.mem_map.2 ⟨(p.1, v), hm, rfl⟩)
      rw [mapGet_cons, if_neg hp]
      exact ih hnd1 hm

theorem mem_mapSet (m : List (K × V)) (k : K) (v : V) (p : K × V) :
    p ∈ mapSet m k v ↔ p = (k, v) ∨ (p ∈ m ∧ p.1 ≠ k) := by
  unfold mapSet
  by_cases h : mapHas m k = true
  · rw [if_pos h, List.mem_map]
    constructor
    · rintro ⟨q, hq, rfl⟩
      by_cases hqk : q.1 = k
      · rw [if_pos hqk]
        exact Or.inl rfl
      · rw [if_neg hqk]
        exact Or.inr ⟨hq, hqk⟩
    · rintro (rfl | ⟨hp, hpk⟩)
      · obtain ⟨q, hq, hqk⟩ := (mapHas_iff_exists m k).1 h
        exact ⟨q, hq, if_pos hqk⟩
      · exact ⟨p, hp, if_neg hpk⟩
  · rw [if_neg h, List.mem_append, List.mem_singleton]
    have h0 : mapHas m k = false := by
      cases hb : mapHas m k with
      | false => rfl
      | true => exact absurd hb h
    constructor
    · rintro (hp | rfl)
      · exact Or.inr ⟨hp, (mapHas_eq_false_iff m k).1 h0 p hp⟩
      · exact Or.inl rfl
    · rintro (rfl | ⟨hp, _⟩)
      · exact Or.inr rfl
      · exact Or.inl hp

theorem keys_map_update (m : List (K × V)) (k : K) (v : V) :
    (m.map (fun p => if p.1 = k then (k, v) else p)).map Prod.fst = m.map Prod.fst := by
  rw [List.map_map]
  apply List.map_congr_left
  intro p _
  by_cases hp : p.1 = k
  · simp [Function.comp, hp]
  · simp [Function.comp, hp]

theorem keysNodup_mapSet (m : List (K × V)) (k : K) (v : V) (h : keysNodup m) :
    keysNodup (mapSet m k v) := by
  unfold keysNodup mapSet
  by_cases hk : mapHas m k = true
  · rw [if_pos hk, keys_map_update]
    exact h
  · rw [if_neg hk, List.map_append]
    refine List.Nodup.append h (List.nodup_singleton k) ?_
    intro a ha hb
    obtain rfl : a = k := by simpa using hb
    have : mapHas m a = true := (mapHas_iff_mem_keys m a).2 (by simpa using ha)
    exact hk this

theorem mapSet_of_not_has (m : List (K × V)) (k : K) (v : V)
    (h : mapHas m k = false) : mapSet m k v = m ++ [(k, v)] := by
  unfold mapSet
  rw [h]
  rfl

theorem mem_mapDelete (m : List (K × V)) (k : K) (p : K × V) :
    p ∈ mapDelete m k ↔ p ∈ m ∧ p.1 ≠ k := by
  unfold mapDelete
  simp [List.mem_filter]

theorem keysNodup_mapDelete (m : List (K × V)) (k : K) (h : keysNodup m) :
    keysNodup (mapDelete m k) := by
  unfold keysNodup mapDelete
  exact (List.Sublist.map Prod.fst (List.filter_sublist m)).nodup h

theorem mapDelete_eq_self (m : List (K × V)) (k : K) (h : mapHas m k = false) :
    mapDelete m k = m := by
  unfold mapDelete
  refine List.filter_eq_self.2 (fun p hp => ?_)
  simp only [decide_eq_true_eq]
  exact (mapHas_eq_false_iff m k).1 h p hp

@[simp]
theorem setHas_iff (s : List T) (x : T) : setHas s x = true ↔ x ∈ s := by
  simp [setHas]

theorem mem_setAdd (s : List T) (x y : T) : y ∈ setAdd s x ↔ y ∈ s ∨ y = x := by
  unfold setAdd
  by_cases h : x ∈ s
  · rw [if_pos h]
    constructor
    · exact Or.inl
    · rintro (hy | rfl) <;> assumption
  · rw [if_neg h]
    simp

theorem nodup_setAdd (s : List T) (x : T) (h : s.Nodup) : (setAdd s x).Nodup := by
  unfold setAdd
  by_cases hx : x ∈ s
  · rw [if_pos hx]
    exact h
  · rw [if_neg hx]
    refine List.Nodup.append h (List.nodup_singleton x) ?_
    intro a ha hb
    obtain rfl : a = x := by simpa using hb
    exact hx ha

theorem setAdd_of_not_mem (s : List T) (x : T) (h : x ∉ s) :
    setAdd s x = s ++ [x] := by
  unfold setAdd
  rw [if_neg h]

theorem setAdd_of_mem (s : List T) (x : T) (h : x ∈ s) : setAdd s x = s := by
  unfold setAdd
  rw [if_pos h]

theorem mem_setDelete (s : List T) (x y : T) :
    y ∈ setDelete s x ↔ y ∈ s ∧ y ≠ x := by
  unfold setDelete
  simp [List.mem_filter]

theorem nodup_setDelete (s : List T) (x : T) (h : s.Nodup) :
    (setDelete s x).Nodup := by
  exact (List.filter_sublist s).nodup h

theorem setDelete_of_not_mem (s : List T) (x : T) (h : x ∉ s) :
    setDelete s x = s := by
  unfold setDelete
  refine List.filter_eq_self.2 (fun y hy => ?_)
  simp only [decide_eq_true_eq]
  rintro rfl
  exact h hy

theorem setDelete_append_singleton (s : List T) (x : T) (h : x ∉ s) :
    setDelete (s ++ [x]) x = s := by
  have hsplit : setDelete (s ++ [x]) x = setDelete s x ++ setDelete [x] x := by
    unfold setDelete
    rw [List.filter_append]
  rw [hsplit, setDelete_of_not_mem s x h]
  simp [setDelete]

end MapSetLemmas

section Invariants

variable [DecidableEq T] [DecidableEq K]

/-- Invariant of one attached index keeper over the master set `objects`:
the keeper's backing map has pairwise-distinct keys (as every JS `Map`
does); every entry sits under the computed key of its value(s), stores only
current members, and (non-unique) no bucket is empty or has duplicates
(*Uniqueness* and *no dangling entries*); and every member appears under
its computed key (*Coverage*). -/
def IndexKeeper.Wf (objects : List T) : IndexKeeper T K → Prop
  | .unique ck _ access =>
      keysNodup access ∧
      (∀ p ∈ access, p.2 ∈ objects ∧ ck p.2 = p.1) ∧
      (∀ v ∈ objects, (ck v, v) ∈ access)
  | .nonunique ck _ access =>
      keysNodup access ∧
      (∀ p ∈ access, p.2 ≠ [] ∧ p.2.Nodup ∧ ∀ w ∈ p.2, w ∈ objects ∧ ck w = p.1) ∧
      (∀ v ∈ objects, ∃ p ∈ access, p.1 = ck v ∧ v ∈ p.2)

instance (m : List (K × V)) : Decidable (keysNodup m) :=
  List.nodupDecidable _

instance (objects : List T) : (i : IndexKeeper T K) → Decidable (i.Wf objects)
  | .unique ck _ access =>
      inferInstanceAs (Decidable (keysNodup access ∧
        (∀ p ∈ access, p.2 ∈ objects ∧ ck p.2 = p.1) ∧
        (∀ v ∈ objects, (ck v, v) ∈ access)))
  | .nonunique ck _ access =>
      inferInstanceAs (Decidable (keysNodup access ∧
        (∀ p ∈ access, p.2 ≠ [] ∧ p.2.Nodup ∧ ∀ w ∈ p.2, w ∈ objects ∧ ck w = p.1) ∧
        (∀ v ∈ objects, ∃ p ∈ access, p.1 = ck v ∧ v ∈ p.2)))

/-- Container invariant: the master set is duplicate-free and every
attached keeper satisfies its index invariant. -/
def Container.Wf (c : Container T K) : Prop :=
  c.objects.Nodup ∧ ∀ i ∈ c.indices, i.Wf c.objects

instance (c : Container T K) : Decidable c.Wf :=
  inferInstanceAs (Decidable (_ ∧ _))

/-- With distinct keys, two entries at the same key coincide. -/
theorem mem_eq_of_keysNodup {m : List (K × V)} {k : K} {a b : V}
    (hnd : keysNodup m) (ha : (k, a) ∈ m) (hb : (k, b) ∈ m) : a = b := by
  have h1 := mapGet_eq_some_of_mem m k a hnd ha
  have h2 := mapGet_eq_some_of_mem m k b hnd hb
  rw [h1] at h2
  injection h2

/-- `prepareAdd` never mutates the keeper: on success it returns it
unchanged. -/
theorem prepareAdd_ok_eq {i i1 : IndexKeeper T K} {k : K} {v : T}
    (h : i.prepareAdd k v = .ok i1) : i1 = i := by
  cases i with
  | unique ck name access =>
    simp only [IndexKeeper.prepareAdd] at h
    split at h
    · exact Except.noConfusion h
    · injection h with h
      exact h.symm
  | nonunique ck name access =>
    simp only [IndexKeeper.prepareAdd] at h
    injection h with h
    exact h.symm

/-- A failing `prepareAdd` comes from the `UniqueIndex` override: the key
is already present and the error is a `NonuniqueIndexError` carrying the
value, the key and the index name. -/
theorem prepareAdd_error_shape {i : IndexKeeper T K} {k : K} {v : T} {e}
    (h : i.prepareAdd k v = .error e) :
    ∃ ck name access, i = .unique ck name access ∧ mapHas access k = true ∧
      e = .nonuniqueIndexError v k name := by
  cases i with
  | unique ck name access =>
    simp only [IndexKeeper.prepareAdd] at h
    split at h
    · injection h with h
      exact ⟨ck, name, access, rfl, by assumption, h.symm⟩
    · exact Except.noConfusion h
  | nonunique ck name access =>
    simp only [IndexKeeper.prepareAdd] at h
    exact Except.noConfusion h

/-- `prepareDelete` never mutates the keeper. -/
theorem prepareDelete_ok_eq {i i1 : IndexKeeper T K} {k : K} {v : T}
    (h : i.prepareDelete k v = .ok i1) : i1 = i := by
  cases i with
  | unique ck name access =>
    simp only [IndexKeeper.prepareDelete] at h
    split at h
    · injection h with h
      exact h.symm
    · exact Except.noConfusion h
  | nonunique ck name access =>
    simp only [IndexKeeper.prepareDelete] at h
    cases hg : mapGet access k with
    | none =>
      simp only [hg] at h
      exact Except.noConfusion h
    | some values =>
      simp only [hg] at h
      split at h
      · injection h with h
        exact h.symm
      · exact Except.noConfusion h

/-- The `prepareAdd` loop of `Container.add` leaves the keeper list
unchanged, whether it succeeds or throws. -/
theorem prepareAddLoop_ok_eq {v : T} {is js : List (IndexKeeper T K)}
    (h : prepareAddLoop v is = .ok js) : js = is := by
  induction is generalizing js with
  | nil =>
    unfold prepareAddLoop at h
    injection h with h
    exact h.symm
  | cons i is ih =>
    unfold prepareAddLoop at h
    cases hp : i.prepareAdd (i.computeKey v) v with
    | error e =>
      rw [hp] at h
      exact Except.noConfusion h
    | ok i1 =>
      rw [hp] at h
      cases hr : prepareAddLoop v is with
      | error ejs =>
        rw [hr] at h
        exact Except.noConfusion h
      | ok js1 =>
        rw [hr] at h
        injection h with h
        rw [← h, ih hr, prepareAdd_ok_eq hp]

theorem prepareAddLoop_error_eq {v : T} {is : List (IndexKeeper T K)} {e js}
    (h : prepareAddLoop v is = .error (e, js)) : js = is := by
  induction is generalizing e js with
  | nil =>
    unfold prepareAddLoop at h
    exact Except.noConfusion h
  | cons i is ih =>
    unfold prepareAddLoop at h
    cases hp : i.prepareAdd (i.computeKey v) v with
    | error e0 =>
      rw [hp] at h
      injection h with h
      rw [Prod.mk.injEq] at h
      rw [h.2]
    | ok i1 =>
      rw [hp] at h
      cases hr : prepareAddLoop v is with
      | error ejs =>
        rw [hr] at h
        injection h with h
        rw [Prod.mk.injEq] at h
        have hjs : js = i1 :: ejs.2 := h.2.symm
        have : ejs.2 = is := by
          apply ih (e := ejs.1)
          rw [hr]
        rw [hjs, this, prepareAdd_ok_eq hp]
      | ok js1 =>
        rw [hr] at h
        exact Except.noConfusion h

/-- When the `prepareAdd` loop succeeds, every keeper's own `prepareAdd`
succeeded. -/
theorem prepareAddLoop_ok_forall {v : T} {is js : List (IndexKeeper T K)}
    (h : prepareAddLoop v is = .ok js) :
    ∀ i ∈ is, i.prepareAdd (i.computeKey v) v = .ok i := by
  induction is generalizing js with
  | nil => intro i hi; simp at hi
  | cons i0 is ih =>
    intro i hi
    unfold prepareAddLoop at h
    cases hp : i0.prepareAdd (i0.computeKey v) v with
    | error e =>
      rw [hp] at h
      exact Except.noConfusion h
    | ok i1 =>
      rw [hp] at h
      cases hr : prepareAddLoop v is with
      | error ejs =>
        rw [hr] at h
        exact Except.noConfusion h
      | ok js1 =>
        rcases List.mem_cons.1 hi with rfl | hi2
        · rw [prepareAdd_ok_eq hp] at hp
          exact hp
        · exact ih hr i hi2

theorem prepareDeleteLoop_ok_eq {v : T} {is js : List (IndexKeeper T K)}
    (h : prepareDeleteLoop v is = .ok js) : js = is := by
  induction is generalizing js with
  | nil =>
    unfold prepareDeleteLoop at h
    injection h with h
    exact h.symm
  | cons i is ih =>
    unfold prepareDeleteLoop at h
    cases hp : i.prepareDelete (i.computeKey v) v with
    | error e =>
      rw [hp] at h
      exact Except.noConfusion h
    | ok i1 =>
      rw [hp] at h
      cases hr : prepareDeleteLoop v is with
      | error ejs =>
        rw [hr] at h
        exact Except.noConfusion h
      | ok js1 =>
        rw [hr] at h
        injection h with h
        rw [← h, ih hr, prepareDelete_ok_eq hp]

/-- When every keeper's `prepareDelete` succeeds, the loop succeeds. -/
theorem prepareDeleteLoop_ok_of_forall {v : T} {is : List (IndexKeeper T K)}
    (h : ∀ i ∈ is, i.prepareDelete (i.computeKey v) v = .ok i) :
    prepareDeleteLoop v is = .ok is := by
  induction is with
  | nil => rfl
  | cons i is ih =>
    unfold prepareDeleteLoop
    rw [h i (List.mem_cons_self i is)]
    rw [ih (fun j hj => h j (List.mem_cons_of_mem i hj))]

end Invariants

section KeeperPreservation

variable [DecidableEq T] [DecidableEq K]

theorem setAdd_ne_nil (s : List T) (x : T) : setAdd s x ≠ [] := by
  unfold setAdd
  by_cases h : x ∈ s
  · rw [if_pos h]
    exact List.ne_nil_of_mem h
  · rw [if_neg h]
    simp

/-- A unique keeper's invariant survives `add` when the new key was
absent. -/
theorem wf_add_unique {ck : T → K} {name : Option String} {access : List (K × T)}
    {objects : List T} {v : T}
    (hw : (IndexKeeper.unique ck name access).Wf objects)
    (hk : mapHas access (ck v) = false) :
    ((IndexKeeper.unique ck name access).add (ck v) v).Wf (setAdd objects v) := by
  obtain ⟨hnd, hent, hcov⟩ := hw
  simp only [IndexKeeper.add, IndexKeeper.Wf]
  refine ⟨keysNodup_mapSet _ _ _ hnd, ?_, ?_⟩
  · intro p hp
    rcases (mem_mapSet _ _ _ p).1 hp with rfl | ⟨hpm, hpk⟩
    · exact ⟨(mem_setAdd _ _ _).2 (Or.inr rfl), rfl⟩
    · obtain ⟨ho, hck⟩ := hent p hpm
      exact ⟨(mem_setAdd _ _ _).2 (Or.inl ho), hck⟩
  · intro w hw2
    rcases (mem_setAdd _ _ _).1 hw2 with hwo | rfl
    · refine (mem_mapSet _ _ _ _).2 (Or.inr ⟨hcov w hwo, ?_⟩)
      intro hkw
      have ht := (mapHas_iff_exists access (ck v)).2 ⟨(ck w, w), hcov w hwo, hkw⟩
      rw [hk] at ht
      exact Bool.false_ne_true ht
    · exact (mem_mapSet _ _ _ _).2 (Or.inl rfl)

/-- A non-unique keeper's invariant survives `add` unconditionally. -/
theorem wf_add_nonunique {ck : T → K} {name : Option String}
    {access : List (K × List T)} {objects : List T} {v : T}
    (hw : (IndexKeeper.nonunique ck name access).Wf objects) :
    ((IndexKeeper.nonunique ck name access).add (ck v) v).Wf (setAdd objects v) := by
  obtain ⟨hnd, hent, hcov⟩ := hw
  simp only [IndexKeeper.add, IndexKeeper.Wf]
  refine ⟨keysNodup_mapSet _ _ _ hnd, ?_, ?_⟩
  · intro p hp
    rcases (mem_mapSet _ _ _ p).1 hp with rfl | ⟨hpm, hpk⟩
    · refine ⟨setAdd_ne_nil _ _, ?_, ?_⟩
      · apply nodup_setAdd
        cases hb : mapGet access (ck v) with
        | none => simp
        | some values =>
          simp only [Option.getD_some]
          exact (hent _ (mapGet_mem _ _ _ hb)).2.1
      · intro w hwmem
        rcases (mem_setAdd _ _ _).1 hwmem with hwb | rfl
        · cases hb : mapGet access (ck v) with
          | none =>
            rw [hb] at hwb
            simp at hwb
          | some values =>
            rw [hb] at hwb
            simp only [Option.getD_some] at hwb
            obtain ⟨hwo, hwk⟩ := (hent _ (mapGet_mem _ _ _ hb)).2.2 w hwb
            exact ⟨(mem_setAdd _ _ _).2 (Or.inl hwo), hwk⟩
        · exact ⟨(mem_setAdd _ _ _).2 (Or.inr rfl), rfl⟩
    · obtain ⟨hne, hndp, hel⟩ := hent p hpm
      exact ⟨hne, hndp, fun w hw2 =>
        ⟨(mem_setAdd _ _ _).2 (Or.inl (hel w hw2).1), (hel w hw2).2⟩⟩
  · intro w hw2
    rcases (mem_setAdd _ _ _).1 hw2 with hwo | rfl
    · obtain ⟨p, hp, hpk, hwp⟩ := hcov w hwo
      by_cases hkk : p.1 = ck v
      · have hget : mapGet access (ck v) = some p.2 := by
          rw [← hkk]
          exact mapGet_eq_some_of_mem access p.1 p.2 hnd hp
        refine ⟨(ck v, setAdd ((mapGet access (ck v)).getD []) v),
                (mem_mapSet _ _ _ _).2 (Or.inl rfl), by rw [← hpk, hkk], ?_⟩
        rw [hget]
        simp only [Option.getD_some]
        exact (mem_setAdd _ _ _).2 (Or.inl hwp)
      · exact ⟨p, (mem_mapSet _ _ _ _).2 (Or.inr ⟨hp, hkk⟩), hpk, hwp⟩
    · refine ⟨(ck w, setAdd ((mapGet access (ck w)).getD []) w),
              (mem_mapSet _ _ _ _).2 (Or.inl rfl), rfl, ?_⟩
      exact (mem_setAdd _ _ _).2 (Or.inr rfl)

/-- A unique keeper's invariant survives `delete` of a member. -/
theorem wf_delete_unique {ck : T → K} {name : Option String} {access : List (K × T)}
    {objects : List T} {v : T}
    (hw : (IndexKeeper.unique ck name access).Wf objects) (hv : v ∈ objects) :
    ((IndexKeeper.unique ck name access).delete (ck v) v).Wf (setDelete objects v) := by
  obtain ⟨hnd, hent, hcov⟩ := hw
  simp only [IndexKeeper.delete, IndexKeeper.Wf]
  refine ⟨keysNodup_mapDelete _ _ hnd, ?_, ?_⟩
  · intro p hp
    obtain ⟨hpm, hpk⟩ := (mem_mapDelete _ _ _).1 hp
    obtain ⟨ho, hck⟩ := hent p hpm
    refine ⟨(mem_setDelete _ _ _).2 ⟨ho, ?_⟩, hck⟩
    rintro rfl
    exact hpk hck.symm
  · intro w hw2
    obtain ⟨hwo, hwv⟩ := (mem_setDelete _ _ _).1 hw2
    refine (mem_mapDelete _ _ _).2 ⟨hcov w hwo, ?_⟩
    intro hkk
    have h1 : (ck v, w) ∈ access := by
      rw [← hkk]
      exact hcov w hwo
    exact hwv (mem_eq_of_keysNodup hnd h1 (hcov v hv))

/-- A non-unique keeper's invariant survives `delete` of a member. -/
theorem wf_delete_nonunique {ck : T → K} {name : Option String}
    {access : List (K × List T)} {objects : List T} {v : T}
    (hw : (IndexKeeper.nonunique ck name access).Wf objects) (hv : v ∈ objects) :
    ((IndexKeeper.nonunique ck name access).delete (ck v) v).Wf (setDelete objects v) := by
  obtain ⟨hnd, hent, hcov⟩ := hw
  obtain ⟨pb, hpb, hpbk, hvb⟩ := hcov v hv
  have hget : mapGet access (ck v) = some pb.2 := by
    rw [← hpbk]
    exact mapGet_eq_some_of_mem access pb.1 pb.2 hnd hpb
  simp only [IndexKeeper.delete, hget]
  split
  · -- the bucket empties: the key is dropped
    simp only [IndexKeeper.Wf]
    refine ⟨keysNodup_mapDelete _ _ hnd, ?_, ?_⟩
    · intro p hp
      obtain ⟨hpm, hpk⟩ := (mem_mapDelete _ _ _).1 hp
      obtain ⟨hne, hndp, hel⟩ := hent p hpm
      refine ⟨hne, hndp, fun w hw2 => ⟨(mem_setDelete _ _ _).2 ⟨(hel w hw2).1, ?_⟩,
        (hel w hw2).2⟩⟩
      rintro rfl
      exact hpk ((hel w hw2).2).symm
    · intro w hw2
      obtain ⟨hwo, hwv⟩ := (mem_setDelete _ _ _).1 hw2
      obtain ⟨p, hp, hpk2, hwp⟩ := hcov w hwo
      by_cases hkk : p.1 = ck v
      · exfalso
        have hpp : p.2 = pb.2 := by
          apply mem_eq_of_keysNodup hnd (k := ck v)
          · rw [← hkk]
            exact hp
          · rw [← hpbk]
            exact hpb
        have hws : w ∈ setDelete pb.2 v := (mem_setDelete _ _ _).2 ⟨hpp ▸ hwp, hwv⟩
        rename_i hs
        rw [hs] at hws
        simp at hws
      · exact ⟨p, (mem_mapDelete _ _ _).2 ⟨hp, hkk⟩, hpk2, hwp⟩
  · -- the bucket stays, shrunk by the deleted value
    rename_i hs
    simp only [IndexKeeper.Wf]
    refine ⟨keysNodup_mapSet _ _ _ hnd, ?_, ?_⟩
    · intro p hp
      rcases (mem_mapSet _ _ _ p).1 hp with rfl | ⟨hpm, hpk⟩
      · refine ⟨hs, nodup_setDelete _ _ (hent pb hpb).2.1, ?_⟩
        intro w hw2
        obtain ⟨hwb, hwv⟩ := (mem_setDelete _ _ _).1 hw2
        obtain ⟨hwo, hwk⟩ := (hent pb hpb).2.2 w hwb
        exact ⟨(mem_setDelete _ _ _).2 ⟨hwo, hwv⟩, by rw [hwk, hpbk]⟩
      · obtain ⟨hne, hndp, hel⟩ := hent p hpm
        refine ⟨hne, hndp, fun w hw2 => ⟨(mem_setDelete _ _ _).2 ⟨(hel w hw2).1, ?_⟩,
          (hel w hw2).2⟩⟩
        rintro rfl
        exact hpk ((hel w hw2).2).symm
    · intro w hw2
      obtain ⟨hwo, hwv⟩ := (mem_setDelete _ _ _).1 hw2
      obtain ⟨p, hp, hpk2, hwp⟩ := hcov w hwo
      by_cases hkk : p.1 = ck v
      · have hpp : p.2 = pb.2 := by
          apply mem_eq_of_keysNodup hnd (k := ck v)
          · rw [← hkk]
            exact hp
          · rw [← hpbk]
            exact hpb
        refine ⟨(ck v, setDelete pb.2 v), (mem_mapSet _ _ _ _).2 (Or.inl rfl),
          by rw [← hpk2, hkk], ?_⟩
        exact (mem_setDelete _ _ _).2 ⟨hpp ▸ hwp, hwv⟩
      · exact ⟨p, (mem_mapSet _ _ _ _).2 (Or.inr ⟨hp, hkk⟩), hpk2, hwp⟩

end KeeperPreservation

section ContainerPreservation

variable [DecidableEq T] [DecidableEq K]

/-- A keeper whose `prepareAdd` succeeded keeps its invariant through the
commit `add`. -/
theorem wf_keeper_add {i : IndexKeeper T K} {objects : List T} {v : T}
    (hw : i.Wf objects) (hp : i.prepareAdd (i.computeKey v) v = .ok i) :
    (i.add (i.computeKey v) v).Wf (setAdd objects v) := by
  cases i with
  | unique ck name access =>
    have hk : mapHas access (ck v) = false := by
      simp only [IndexKeeper.prepareAdd, IndexKeeper.computeKey] at hp
      by_cases h : mapHas access (ck v) = true
      · rw [if_pos h] at hp
        exact Except.noConfusion hp
      · simpa using h
    exact wf_add_unique hw hk
  | nonunique ck name access =>
    exact wf_add_nonunique hw

/-- A successful `Container.add` preserves the container invariant. -/
theorem wf_container_add {c : Container T K} {v : T} {c1 : Container T K}
    (hw : c.Wf) (h : c.add v = .ok c1) : c1.Wf := by
  unfold Container.add at h
  cases hp : prepareAddLoop v c.indices with
  | error ejs =>
    rw [hp] at h
    exact Except.noConfusion h
  | ok js =>
    rw [hp] at h
    have hjs : js = c.indices := prepareAddLoop_ok_eq hp
    subst hjs
    injection h with h
    subst h
    refine ⟨nodup_setAdd _ _ hw.1, ?_⟩
    intro i1 hi1
    obtain ⟨i, hi, rfl⟩ := List.mem_map.1 hi1
    exact wf_keeper_add (hw.2 i hi) (prepareAddLoop_ok_forall hp i hi)

/-- A successful `Container.delete` preserves the container invariant. -/
theorem wf_container_delete {c : Container T K} {v : T} {b : Bool} {c1 : Container T K}
    (hw : c.Wf) (h : c.delete v = .ok (b, c1)) : c1.Wf := by
  unfold Container.delete at h
  by_cases hm : setHas c.objects v = true
  · rw [if_pos hm] at h
    cases hp : prepareDeleteLoop v c.indices with
    | error ejs =>
      rw [hp] at h
      exact Except.noConfusion h
    | ok js =>
      rw [hp] at h
      have hjs : js = c.indices := prepareDeleteLoop_ok_eq hp
      subst hjs
      injection h with h
      rw [Prod.mk.injEq] at h
      obtain ⟨hb, hc⟩ := h
      subst hc
      have hv : v ∈ c.objects := (setHas_iff _ _).1 hm
      refine ⟨nodup_setDelete _ _ hw.1, ?_⟩
      intro i1 hi1
      obtain ⟨i, hi, rfl⟩ := List.mem_map.1 hi1
      cases i with
      | unique ck name access => exact wf_delete_unique (hw.2 _ hi) hv
      | nonunique ck name access => exact wf_delete_nonunique (hw.2 _ hi) hv
  · rw [if_neg hm] at h
    injection h with h
    rw [Prod.mk.injEq] at h
    obtain ⟨hb, hc⟩ := h
    subst hc
    exact hw

/-- Backfilling over the tail of the master set keeps the keeper's
invariant, growing the covered prefix. -/
theorem wf_backfill {idx idx1 : IndexKeeper T K} {done l : List T}
    (hw : idx.Wf done) (hnd : (done ++ l).Nodup)
    (h : backfillLoop idx l = .ok idx1) : idx1.Wf (done ++ l) := by
  induction l generalizing idx done with
  | nil =>
    unfold backfillLoop at h
    injection h with h
    subst h
    simpa using hw
  | cons v vs ih =>
    unfold backfillLoop at h
    cases hp : idx.prepareAdd (idx.computeKey v) v with
    | error e =>
      rw [hp] at h
      exact Except.noConfusion h
    | ok idx2 =>
      rw [hp] at h
      have hp2 : idx.prepareAdd (idx.computeKey v) v = .ok idx := by
        rw [hp, prepareAdd_ok_eq hp]
      rw [prepareAdd_ok_eq hp] at h
      change backfillLoop (idx.add (idx.computeKey v) v) vs = Except.ok idx1 at h
      have hvdone : v ∉ done := by
        intro hvd
        rw [List.nodup_append] at hnd
        exact hnd.2.2 hvd (List.mem_cons_self v vs)
      have hwf2 : (idx.add (idx.computeKey v) v).Wf (done ++ [v]) := by
        rw [← setAdd_of_not_mem _ _ hvdone]
        exact wf_keeper_add hw hp2
      have hnd2 : ((done ++ [v]) ++ vs).Nodup := by
        rw [List.append_assoc]
        simpa using hnd
      have hres := ih hwf2 hnd2 h
      rw [List.append_assoc] at hres
      simpa using hres

/-- A freshly constructed keeper trivially satisfies the invariant for the
empty master set. -/
theorem wf_fresh_keeper {idx : IndexKeeper T K} (hf : idx.isFresh) : idx.Wf [] := by
  cases idx with
  | unique ck name access =>
    obtain rfl : access = [] := hf
    exact ⟨by simp [keysNodup], by simp, by simp⟩
  | nonunique ck name access =>
    obtain rfl : access = [] := hf
    exact ⟨by simp [keysNodup], by simp, by simp⟩

/-- A successful `Container.use` of a fresh keeper preserves the container
invariant. -/
theorem wf_container_use {c : Container T K} {idx : IndexKeeper T K} {c1 : Container T K}
    (hw : c.Wf) (hf : idx.isFresh) (h : c.use idx = .ok c1) : c1.Wf := by
  unfold Container.use at h
  cases hb : backfillLoop idx c.objects with
  | error ej =>
    rw [hb] at h
    exact Except.noConfusion h
  | ok idx1 =>
    rw [hb] at h
    injection h with h
    subst h
    refine ⟨hw.1, ?_⟩
    intro i hi
    rcases List.mem_append.1 hi with hi1 | hi2
    · exact hw.2 i hi1
    · obtain rfl : i = idx1 := by simpa using hi2
      have hres := wf_backfill (wf_fresh_keeper hf) (by simpa using hw.1) hb
      simpa using hres

theorem wf_empty : (Container.empty : Container T K).Wf := by
  refine ⟨List.nodup_nil, ?_⟩
  intro i hi
  simp [Container.empty] at hi

end ContainerPreservation

section SupportLemmas

variable [DecidableEq T] [DecidableEq K]

theorem mapHas_mapSet_self (m : List (K × V)) (k : K) (v : V) :
    mapHas (mapSet m k v) k = true :=
  (mapHas_iff_exists _ _).2 ⟨(k, v), (mem_mapSet _ _ _ _).2 (Or.inl rfl), rfl⟩

theorem mapHas_mapSet_of_has (m : List (K × V)) (k k0 : K) (v : V)
    (h : mapHas m k = true) : mapHas (mapSet m k0 v) k = true := by
  obtain ⟨p, hp, hpk⟩ := (mapHas_iff_exists m k).1 h
  by_cases hk : k = k0
  · subst hk
    exact mapHas_mapSet_self m k v
  · refine (mapHas_iff_exists _ _).2 ⟨p, (mem_mapSet _ _ _ _).2 (Or.inr ⟨hp, ?_⟩), hpk⟩
    rw [hpk]
    exact hk

/-- A failing `prepareAdd` loop pins the blame on some attached unique
keeper that already holds the value's key. -/
theorem prepareAddLoop_error_shape {v : T} {is : List (IndexKeeper T K)}
    {e : ContainerError T K} {js : List (IndexKeeper T K)}
    (h : prepareAddLoop v is = .error (e, js)) :
    ∃ i ∈ is, ∃ ck name access, i = .unique ck name access ∧
      mapHas access (ck v) = true ∧ e = .nonuniqueIndexError v (ck v) name := by
  induction is generalizing e js with
  | nil => exact Except.noConfusion h
  | cons i is ih =>
    unfold prepareAddLoop at h
    cases hp : i.prepareAdd (i.computeKey v) v with
    | error e0 =>
      rw [hp] at h
      injection h with h
      rw [Prod.mk.injEq] at h
      obtain ⟨he, hjs⟩ := h
      obtain ⟨ck, name, access, hi, hk, hes⟩ := prepareAdd_error_shape hp
      subst hi
      refine ⟨_, List.mem_cons_self _ is, ck, name, access, rfl, hk, ?_⟩
      rw [← he]
      exact hes
    | ok i1 =>
      rw [hp] at h
      cases hr : prepareAddLoop v is with
      | error ejs =>
        rw [hr] at h
        injection h with h
        rw [Prod.mk.injEq] at h
        obtain ⟨he, hjs⟩ := h
        obtain ⟨i2, hi2, ck, name, access, hi, hk, hes⟩ :=
          ih (by rw [hr] : prepareAddLoop v is = Except.error (ejs.1, ejs.2))
        refine ⟨i2, List.mem_cons_of_mem _ hi2, ck, name, access, hi, hk, ?_⟩
        rw [← he]
        exact hes
      | ok js1 =>
        rw [hr] at h
        exact Except.noConfusion h

/-- Under the invariant, `prepareDelete` succeeds on every member. -/
theorem prepareDelete_ok_of_wf {i : IndexKeeper T K} {objects : List T} {v : T}
    (hw : i.Wf objects) (hv : v ∈ objects) :
    i.prepareDelete (i.computeKey v) v = .ok i := by
  cases i with
  | unique ck name access =>
    obtain ⟨hnd, hent, hcov⟩ := hw
    have hk : mapHas access (ck v) = true :=
      (mapHas_iff_exists _ _).2 ⟨(ck v, v), hcov v hv, rfl⟩
    simp only [IndexKeeper.prepareDelete, IndexKeeper.computeKey]
    rw [if_pos hk]
  | nonunique ck name access =>
    obtain ⟨hnd, hent, hcov⟩ := hw
    obtain ⟨p, hp, hpk, hvp⟩ := hcov v hv
    have hget : mapGet access (ck v) = some p.2 := by
      rw [← hpk]
      exact mapGet_eq_some_of_mem access p.1 p.2 hnd hp
    have hhas : setHas p.2 v = true := (setHas_iff _ _).2 hvp
    simp only [IndexKeeper.prepareDelete, IndexKeeper.computeKey, hget, hhas, if_pos]

/-- Under the invariant, deleting a member commits on every keeper and
returns `true`. -/
theorem delete_of_mem {c : Container T K} (hw : c.Wf) {v : T} (hv : v ∈ c.objects) :
    c.delete v = .ok (true,
      { objects := setDelete c.objects v,
        indices := c.indices.map (fun i => i.delete (i.computeKey v) v) }) := by
  unfold Container.delete
  rw [if_pos ((setHas_iff _ _).2 hv),
    prepareDeleteLoop_ok_of_forall (fun i hi => prepareDelete_ok_of_wf (hw.2 i hi) hv)]

/-- Deleting a non-member returns `false` and changes nothing. -/
theorem delete_of_not_mem {c : Container T K} {v : T} (hv : v ∉ c.objects) :
    c.delete v = .ok (false, c) := by
  unfold Container.delete
  rw [if_neg (fun h => hv ((setHas_iff _ _).1 h))]

/-- When every keeper's `prepareAdd` succeeds, the loop succeeds. -/
theorem prepareAddLoop_ok_of_forall {v : T} {is : List (IndexKeeper T K)}
    (h : ∀ i ∈ is, i.prepareAdd (i.computeKey v) v = .ok i) :
    prepareAddLoop v is = .ok is := by
  induction is with
  | nil => rfl
  | cons i is ih =>
    unfold prepareAddLoop
    rw [h i (List.mem_cons_self i is),
      ih (fun j hj => h j (List.mem_cons_of_mem i hj))]

end SupportLemmas

section Claims

variable [DecidableEq T] [DecidableEq K]

/-- C1 — Atomic add: for every container with at least one attached unique
index, if `Container.add v` fails then it throws a `NonuniqueIndexError`
blamed on some attached unique index that already holds the value's key,
and the container carried at the throw point is exactly the pre-call
container: the master set and every attached index's backing mapping are
unchanged. -/
theorem claim_atomic_add (c : Container T K) (v : T)
    (hu : ∃ i ∈ c.indices, i.isUnique = true)
    (e : ContainerError T K) (c1 : Container T K)
    (h : c.add v = .error (e, c1)) :
    c1 = c ∧ ∃ i ∈ c.indices, ∃ ck name access, i = .unique ck name access ∧
      mapHas access (ck v) = true ∧ e = .nonuniqueIndexError v (ck v) name := by
  unfold Container.add at h
  cases hp : prepareAddLoop v c.indices with
  | error ejs =>
    rw [hp] at h
    injection h with h
    rw [Prod.mk.injEq] at h
    obtain ⟨he, hc⟩ := h
    constructor
    · rw [← hc]
      have hjs : ejs.2 = c.indices := prepareAddLoop_error_eq (e := ejs.1) (by rw [hp])
      rw [hjs]
    · obtain ⟨i, hi, ck, name, access, hieq, hk, hes⟩ :=
        prepareAddLoop_error_shape
          (by rw [hp] : prepareAddLoop v c.indices = Except.error (ejs.1, ejs.2))
      refine ⟨i, hi, ck, name, access, hieq, hk, ?_⟩
      rw [← he]
      exact hes
  | ok js =>
    rw [hp] at h
    exact Except.noConfusion h

/-- Witness for C1 at a concrete collision. -/
theorem claim_atomic_add_witness :
    (⟨[0], [IndexKeeper.unique (fun n : Nat => n) none [(0, 0)]]⟩ : Container Nat Nat) =
      (⟨[0], [IndexKeeper.unique (fun n : Nat => n) none [(0, 0)]]⟩ : Container Nat Nat) ∧
    ∃ i ∈ (⟨[0], [IndexKeeper.unique (fun n : Nat => n) none [(0, 0)]]⟩ :
        Container Nat Nat).indices,
      ∃ ck name access, i = .unique ck name access ∧
        mapHas access (ck 0) = true ∧
        (ContainerError.nonuniqueIndexError (0 : Nat) (0 : Nat) none) =
          .nonuniqueIndexError 0 (ck 0) name :=
  claim_atomic_add _ 0
    ⟨IndexKeeper.unique (fun n : Nat => n) none [(0, 0)], List.mem_cons_self _ _, rfl⟩ _ _ rfl

/-- C2 — Invariant preservation: `computeKey` functions are pure and
deterministic by construction of the embedding; every successful
`Container.add`, `Container.delete`, and `Container.use` of a fresh index
preserves the container invariant `Container.Wf` (Coverage, Uniqueness with
membership of the indexed values, and no empty or duplicated buckets on
non-unique indices). -/
theorem claim_invariants_preserved (c : Container T K) (hw : c.Wf) :
    (∀ v c1, c.add v = .ok c1 → c1.Wf) ∧
    (∀ v b c1, c.delete v = .ok (b, c1) → c1.Wf) ∧
    (∀ idx c1, idx.isFresh → c.use idx = .ok c1 → c1.Wf) :=
  ⟨fun _ _ h => wf_container_add hw h,
   fun _ _ _ h => wf_container_delete hw h,
   fun _ _ hf h => wf_container_use hw hf h⟩

/-- Witness for C2: adding to a well-formed one-index container yields a
well-formed container. -/
theorem claim_invariants_preserved_witness :
    Container.Wf (⟨[3], [IndexKeeper.unique (fun n : Nat => n) none [(3, 3)]]⟩ :
      Container Nat Nat) :=
  (claim_invariants_preserved
      (⟨[], [IndexKeeper.unique (fun n : Nat => n) none []]⟩ : Container Nat Nat)
      (by decide)).1 3
    ⟨[3], [IndexKeeper.unique (fun n : Nat => n) none [(3, 3)]]⟩ rfl

/-- C4 — Delete returns membership: under the container invariant,
`Container.delete v` succeeds returning `true` exactly when `v` is a member
of the master set by identity; on a non-member — in particular on a value
merely structurally equal to a stored one, which is a distinct element of
`T` under the identity semantics of the embedding — it returns `false` and
the container is unchanged. -/
theorem claim_delete_membership (c : Container T K) (hw : c.Wf) (v : T) :
    (v ∈ c.objects → ∃ c1, c.delete v = .ok (true, c1)) ∧
    (v ∉ c.objects → c.delete v = .ok (false, c)) := by
  exact ⟨fun hv => ⟨_, delete_of_mem hw hv⟩, fun hv => delete_of_not_mem hv⟩

/-- Witness for C4: member deletion returns true; deleting a value that was
never added (any distinct object) returns false and changes nothing. -/
theorem claim_delete_membership_witness :
    (∃ c1, (⟨[7], [IndexKeeper.unique (fun n : Nat => n) none [(7, 7)]]⟩ :
        Container Nat Nat).delete 7 = .ok (true, c1)) ∧
    (⟨[7], [IndexKeeper.unique (fun n : Nat => n) none [(7, 7)]]⟩ :
        Container Nat Nat).delete 8 =
      .ok (false, ⟨[7], [IndexKeeper.unique (fun n : Nat => n) none [(7, 7)]]⟩) :=
  ⟨(claim_delete_membership _ (by decide) 7).1 (by decide),
   (claim_delete_membership _ (by decide) 8).2 (by decide)⟩

/-- C7 counterexample: on a fresh non-unique index `prepareAdd 0 0`
succeeds, yet afterwards the key `0` still has no bucket in the backing
mapping — the claim that the bucket exists after `prepareAdd` returns is
false (the bucket is only created by `add`). -/
theorem claim_nonunique_prepareAdd_counterexample :
    ((IndexKeeper.nonunique (fun n : Nat => n) none
        ([] : List (Nat × List Nat))).prepareAdd 0 0).map
      (fun i => i.hasKey 0) = .ok false := rfl

/-- C7 (amended) — for every non-unique index, key and value, `prepareAdd`
never fails and leaves the backing mapping unchanged (it performs no
mutation at all: `NonuniqueIndex` inherits the base-class no-op); the key's
bucket is instead created by the subsequent `add`, after which the key is
present. -/
theorem claim_nonunique_prepareAdd (ck : T → K) (name : Option String)
    (access : List (K × List T)) (k : K) (v : T) :
    (IndexKeeper.nonunique ck name access).prepareAdd k v =
      .ok (.nonunique ck name access) ∧
    ((IndexKeeper.nonunique ck name access).add k v).hasKey k = true := by
  constructor
  · rfl
  · simp only [IndexKeeper.add, IndexKeeper.hasKey]
    exact mapHas_mapSet_self _ _ _

end Claims

section ClaimsMore

variable [DecidableEq T] [DecidableEq K]

/-- C8 — `prepareDelete` failure modes: a unique index fails with
`MissingKeyError` (carrying the value, key and index name) exactly when the
key is absent, and succeeds otherwise; a non-unique index fails with
`MissingKeyError` when the key is absent, fails with the generic
(non-`IndexError`) consistency error when the bucket exists but lacks the
value, and succeeds otherwise. -/
theorem claim_prepareDelete_failure_modes (ck : T → K) (name : Option String)
    (k : K) (v : T) :
    (∀ access : List (K × T),
      ((IndexKeeper.unique ck name access).prepareDelete k v =
          .error (.missingKeyError v k name) ↔ mapHas access k = false) ∧
      (mapHas access k = true →
        (IndexKeeper.unique ck name access).prepareDelete k v =
          .ok (.unique ck name access))) ∧
    (∀ access : List (K × List T),
      (mapHas access k = false →
        (IndexKeeper.nonunique ck name access).prepareDelete k v =
          .error (.missingKeyError v k name)) ∧
      (∀ values, mapGet access k = some values →
        (v ∉ values →
          (IndexKeeper.nonunique ck name access).prepareDelete k v =
            .error .genericError) ∧
        (v ∈ values →
          (IndexKeeper.nonunique ck name access).prepareDelete k v =
            .ok (.nonunique ck name access)))) ∧
    (ContainerError.genericError : ContainerError T K).isIndexError = false ∧
    (∀ (v0 : T) (k0 : K),
      (ContainerError.missingKeyError v0 k0 name : ContainerError T K).isIndexError
        = true) := by
  refine ⟨fun access => ⟨⟨?_, ?_⟩, ?_⟩, fun access => ⟨?_, fun values hget => ⟨?_, ?_⟩⟩,
    rfl, fun v0 k0 => rfl⟩
  · intro h
    by_cases hk : mapHas access k = true
    · simp only [IndexKeeper.prepareDelete] at h
      rw [if_pos hk] at h
      exact Except.noConfusion h
    · simpa using hk
  · intro h
    simp [IndexKeeper.prepareDelete, h]
  · intro h
    simp [IndexKeeper.prepareDelete, h]
  · intro h
    simp [IndexKeeper.prepareDelete, (mapGet_eq_none_iff access k).2 h]
  · intro hv
    have hs : setHas values v = false := by
      simp [setHas, hv]
    simp [IndexKeeper.prepareDelete, hget, hs]
  · intro hv
    simp [IndexKeeper.prepareDelete, hget, (setHas_iff _ _).2 hv]

/-- Witness for C8: a missing key yields `MissingKeyError`; a bucket
lacking the value yields the generic error. -/
theorem claim_prepareDelete_failure_modes_witness :
    (IndexKeeper.unique (fun n : Nat => n) none
        ([] : List (Nat × Nat))).prepareDelete 0 0 =
      .error (.missingKeyError 0 0 none) ∧
    (IndexKeeper.nonunique (fun n : Nat => n) none [(0, [1])]).prepareDelete 0 0 =
      .error .genericError :=
  ⟨((claim_prepareDelete_failure_modes (fun n : Nat => n) none 0 0).1 []).1.mpr rfl,
   (((claim_prepareDelete_failure_modes (fun n : Nat => n) none 0 0).2.1
       [(0, [1])]).2 [1] rfl).1 (by decide)⟩

/-- A unique keeper's backfill fails whenever the walked values contain a
key collision, either against the keeper's existing keys or among
themselves, and the resulting error is a `NonuniqueIndexError` named after
the keeper. -/
theorem backfillLoop_unique_error {ck : T → K} {name : Option String}
    (l : List T) (m : List (K × T))
    (h : (∃ v ∈ l, mapHas m (ck v) = true) ∨
         (∃ v ∈ l, ∃ w ∈ l, v ≠ w ∧ ck v = ck w)) :
    ∃ e j, backfillLoop (IndexKeeper.unique ck name m) l = .error (e, j) ∧
      ∃ val key, e = .nonuniqueIndexError val key name := by
  induction l generalizing m with
  | nil =>
    rcases h with ⟨v, hv, _⟩ | ⟨v, hv, _⟩ <;> simp at hv
  | cons x xs ih =>
    by_cases hx : mapHas m (ck x) = true
    · refine ⟨.nonuniqueIndexError x (ck x) name, IndexKeeper.unique ck name m, ?_,
        x, ck x, rfl⟩
      unfold backfillLoop
      simp only [IndexKeeper.prepareAdd, IndexKeeper.computeKey]
      rw [if_pos hx]
    · have hstep : backfillLoop (IndexKeeper.unique ck name m) (x :: xs) =
          backfillLoop (IndexKeeper.unique ck name (mapSet m (ck x) x)) xs := by
        conv_lhs => unfold backfillLoop
        simp only [IndexKeeper.prepareAdd, IndexKeeper.computeKey]
        rw [if_neg hx]
        rfl
      rw [hstep]
      apply ih
      rcases h with ⟨v, hv, hvk⟩ | ⟨v, hv, w, hwmem, hvw, hk⟩
      · rcases List.mem_cons.1 hv with heq | hv2
        · exact absurd (heq ▸ hvk) hx
        · exact Or.inl ⟨v, hv2, mapHas_mapSet_of_has _ _ _ _ hvk⟩
      · rcases List.mem_cons.1 hv with heq | hv2
        · rcases List.mem_cons.1 hwmem with heq2 | hw2
          · exact absurd (heq.trans heq2.symm) hvw
          · refine Or.inl ⟨w, hw2, ?_⟩
            rw [← hk, heq]
            exact mapHas_mapSet_self m (ck x) x
        · rcases List.mem_cons.1 hwmem with heq2 | hw2
          · refine Or.inl ⟨v, hv2, ?_⟩
            rw [hk, heq2]
            exact mapHas_mapSet_self m (ck x) x
          · exact Or.inr ⟨v, hv2, w, hw2, hvw, hk⟩

/-- C3 — Backfill failure leaves the container untouched: attaching a
fresh unique index whose key function collides on two distinct current
members fails with a `NonuniqueIndexError` named after the new index; the
error carries the container exactly as it was (master set and previously
attached indices unchanged) and the failed index is not appended to the
attached-index list. -/
theorem claim_backfill_failure (c : Container T K) (ck : T → K) (name : Option String)
    (h : ∃ v ∈ c.objects, ∃ w ∈ c.objects, v ≠ w ∧ ck v = ck w) :
    ∃ e j, c.use (IndexKeeper.unique ck name []) = .error (e, c, j) ∧
      ∃ val key, e = .nonuniqueIndexError val key name := by
  obtain ⟨e, j, hb, val, key, he⟩ := backfillLoop_unique_error c.objects [] (Or.inr h)
  refine ⟨e, j, ?_, val, key, he⟩
  unfold Container.use
  rw [hb]

/-- Witness for C3: two odd numbers collide on the parity key. -/
theorem claim_backfill_failure_witness :
    ∃ e j, (⟨[1, 3], []⟩ : Container Nat Nat).use
        (IndexKeeper.unique (fun n : Nat => n % 2) none []) =
          .error (e, ⟨[1, 3], []⟩, j) ∧
      ∃ val key, e = .nonuniqueIndexError val key none :=
  claim_backfill_failure _ _ none (by decide)

end ClaimsMore

section RoundTrip

variable [DecidableEq T] [DecidableEq K]

theorem mapGet_map_update_of_has (m : List (K × V)) (k : K) (v : V)
    (h : mapHas m k = true) :
    mapGet (m.map (fun q => if q.1 = k then (k, v) else q)) k = some v := by
  induction m with
  | nil => simp at h
  | cons p m ih =>
    by_cases hp : p.1 = k
    · simp only [List.map_cons, if_pos hp, mapGet_cons]
      simp
    · simp only [List.map_cons, if_neg hp, mapGet_cons]
      apply ih
      rw [mapHas_cons, if_neg hp] at h
      exact h

theorem mapGet_append_right_of_not_has (m : List (K × V)) (k : K) (v : V)
    (h : mapHas m k = false) :
    mapGet (m ++ [(k, v)]) k = some v := by
  induction m with
  | nil => simp
  | cons p m ih =>
    rw [mapHas_cons] at h
    by_cases hp : p.1 = k
    · rw [if_pos hp] at h
      exact Bool.noConfusion h
    · rw [if_neg hp] at h
      rw [List.cons_append, mapGet_cons, if_neg hp]
      exact ih h

/-- After `mapSet`, `get` at the written key answers the written value. -/
theorem mapGet_mapSet_self (m : List (K × V)) (k : K) (v : V) :
    mapGet (mapSet m k v) k = some v := by
  unfold mapSet
  by_cases h : mapHas m k = true
  · rw [if_pos h]
    exact mapGet_map_update_of_has m k v h
  · rw [if_neg h]
    exact mapGet_append_right_of_not_has m k v (by simpa using h)

theorem mapSet_of_has (m : List (K × V)) (k : K) (v : V) (h : mapHas m k = true) :
    mapSet m k v = m.map (fun q => if q.1 = k then (k, v) else q) := by
  unfold mapSet
  rw [if_pos h]

/-- Overwriting a key twice is the same as writing it once. -/
theorem mapSet_mapSet (m : List (K × V)) (k : K) (a b : V) :
    mapSet (mapSet m k a) k b = mapSet m k b := by
  rw [mapSet_of_has _ _ b (mapHas_mapSet_self m k a)]
  by_cases h : mapHas m k = true
  · rw [mapSet_of_has _ _ a h, mapSet_of_has _ _ b h, List.map_map]
    apply List.map_congr_left
    intro q hq
    by_cases hq1 : q.1 = k
    · simp [hq1, Function.comp]
    · simp [hq1, Function.comp]
  · have h0 : mapHas m k = false := by simpa using h
    rw [mapSet_of_not_has _ _ a h0, mapSet_of_not_has _ _ b h0, List.map_append]
    have h4 : m.map (fun q => if q.1 = k then (k, b) else q) = m := by
      have hfun : ∀ q ∈ m, (fun q => if q.1 = k then (k, b) else q) q = id q := by
        intro q hq
        have hne : q.1 ≠ k := (mapHas_eq_false_iff m k).1 h0 q hq
        simp [hne]
      rw [List.map_congr_left hfun, List.map_id]
    rw [h4]
    simp

/-- Writing back the value a key already holds changes nothing. -/
theorem mapSet_self (m : List (K × V)) (k : K) (v : V)
    (hnd : keysNodup m) (h : (k, v) ∈ m) : mapSet m k v = m := by
  unfold mapSet
  rw [if_pos ((mapHas_iff_exists _ _).2 ⟨(k, v), h, rfl⟩)]
  have hfun : ∀ q ∈ m, (fun q => if q.1 = k then (k, v) else q) q = id q := by
    intro q hq
    by_cases hq1 : q.1 = k
    · have hq2 : q.2 = v := by
        apply mem_eq_of_keysNodup hnd (k := k)
        · rw [← hq1]
          exact hq
        · exact h
      simp only [if_pos hq1, id]
      rw [← hq1, ← hq2]
    · simp [hq1]
  rw [List.map_congr_left hfun, List.map_id]

theorem mapDelete_mapSet_of_not_has (m : List (K × V)) (k : K) (v : V)
    (h : mapHas m k = false) : mapDelete (mapSet m k v) k = m := by
  have h1 : mapSet m k v = m ++ [(k, v)] := by
    unfold mapSet
    rw [if_neg (by simp [h])]
  rw [h1]
  unfold mapDelete
  rw [List.filter_append]
  have h2 : m.filter (fun p => decide (p.1 ≠ k)) = m :=
    List.filter_eq_self.2 (fun p hp => by
      simp only [decide_eq_true_eq]
      exact (mapHas_eq_false_iff m k).1 h p hp)
  have h3 : ([(k, v)].filter (fun p => decide (p.1 ≠ k)) : List (K × V)) = [] := by
    simp
  rw [h2, h3, List.append_nil]

/-- `delete` on a non-unique keeper, spelled out when the key's bucket is
known. -/
theorem delete_nonunique_eq {ck : T → K} {name : Option String}
    {access : List (K × List T)} {k : K} {v : T} {values : List T}
    (h : mapGet access k = some values) :
    (IndexKeeper.nonunique ck name access).delete k v =
      (if setDelete values v = [] then
        IndexKeeper.nonunique ck name (mapDelete access k)
       else IndexKeeper.nonunique ck name (mapSet access k (setDelete values v))) := by
  simp only [IndexKeeper.delete, h]

/-- Round trip on a unique keeper: `add` then `delete` of the same value
restores the backing map exactly, provided the key was absent. -/
theorem roundtrip_unique {ck : T → K} {name : Option String}
    {access : List (K × T)} {v : T} (hk : mapHas access (ck v) = false) :
    ((IndexKeeper.unique ck name access).add (ck v) v).delete (ck v) v =
      .unique ck name access := by
  simp only [IndexKeeper.add, IndexKeeper.delete]
  rw [mapDelete_mapSet_of_not_has _ _ _ hk]

/-- Round trip on a non-unique keeper: `add` then `delete` of a value that
was not a member restores the backing map exactly. -/
theorem roundtrip_nonunique {ck : T → K} {name : Option String}
    {access : List (K × List T)} {objects : List T} {v : T}
    (hw : (IndexKeeper.nonunique ck name access).Wf objects) (hv : v ∉ objects) :
    ((IndexKeeper.nonunique ck name access).add (ck v) v).delete (ck v) v =
      .nonunique ck name access := by
  obtain ⟨hnd, hent, hcov⟩ := hw
  cases hb : mapGet access (ck v) with
  | none =>
    have hhas : mapHas access (ck v) = false := (mapGet_eq_none_iff _ _).1 hb
    have haddeq : (IndexKeeper.nonunique ck name access).add (ck v) v =
        .nonunique ck name (mapSet access (ck v) [v]) := by
      simp only [IndexKeeper.add, hb, Option.getD_none]
      rw [setAdd_of_not_mem _ _ (by simp)]
      rfl
    rw [haddeq, delete_nonunique_eq (mapGet_mapSet_self access (ck v) [v])]
    have h2 : setDelete [v] v = [] := by
      simp [setDelete]
    rw [h2, if_pos rfl, mapDelete_mapSet_of_not_has _ _ _ hhas]
  | some values =>
    have hmem : (ck v, values) ∈ access := mapGet_mem _ _ _ hb
    have hvval : v ∉ values := fun hvv => hv ((hent _ hmem).2.2 v hvv).1
    have haddeq : (IndexKeeper.nonunique ck name access).add (ck v) v =
        .nonunique ck name (mapSet access (ck v) (values ++ [v])) := by
      simp only [IndexKeeper.add, hb, Option.getD_some, setAdd_of_not_mem _ _ hvval]
    rw [haddeq,
      delete_nonunique_eq (mapGet_mapSet_self access (ck v) (values ++ [v])),
      setDelete_append_singleton _ _ hvval,
      if_neg (hent _ hmem).1, mapSet_mapSet, mapSet_self access (ck v) values hnd hmem]

end RoundTrip

section ClaimRoundTrip

variable [DecidableEq T] [DecidableEq K]

/-- C5 — Round trip: on a well-formed container, adding a fresh value `v`
and then deleting it succeeds (`delete` returning `true`) and restores the
container exactly, so every index's lookup reflects `v`'s absence: on every
unique index `v`'s key is absent (it was absent before the add), on every
non-unique index `v` is in no bucket of its key, and a bucket that held
only `v` is gone (the state equals the pre-add state, where it did not
exist).  A subsequent add of a value `w` whose key under each unique index
equals `v`'s former key then succeeds. -/
theorem claim_round_trip (c : Container T K) (hw : c.Wf) (v : T)
    (hv : v ∉ c.objects) (c1 : Container T K) (hadd : c.add v = .ok c1) (w : T)
    (hkeys : ∀ i ∈ c.indices, i.isUnique = true → i.computeKey w = i.computeKey v) :
    ∃ c2, c1.delete v = .ok (true, c2) ∧ c2 = c ∧
      (∀ i ∈ c.indices, ∀ ck name accessU, i = .unique ck name accessU →
        mapHas accessU (ck v) = false) ∧
      (∀ i ∈ c.indices, ∀ ck name accessN, i = .nonunique ck name accessN →
        ∀ b, mapGet accessN (ck v) = some b → v ∉ b) ∧
      ∃ c3, c.add w = .ok c3 := by
  unfold Container.add at hadd
  cases hp : prepareAddLoop v c.indices with
  | error ejs =>
    rw [hp] at hadd
    exact Except.noConfusion hadd
  | ok js =>
    rw [hp] at hadd
    have hjs : js = c.indices := prepareAddLoop_ok_eq hp
    subst hjs
    injection hadd with hadd
    have hforall := prepareAddLoop_ok_forall hp
    have huniqF : ∀ i ∈ c.indices, ∀ ck name accessU, i = .unique ck name accessU →
        mapHas accessU (ck v) = false := by
      intro i hi ck name accessU hieq
      subst hieq
      have hok := hforall _ hi
      simp only [IndexKeeper.prepareAdd, IndexKeeper.computeKey] at hok
      by_cases hk : mapHas accessU (ck v) = true
      · rw [if_pos hk] at hok
        exact Except.noConfusion hok
      · simpa using hk
    have hnonuF : ∀ i ∈ c.indices, ∀ ck name accessN, i = .nonunique ck name accessN →
        ∀ b, mapGet accessN (ck v) = some b → v ∉ b := by
      intro i hi ck name accessN hieq b hget hvb
      subst hieq
      exact hv (((hw.2 _ hi).2.1 _ (mapGet_mem _ _ _ hget)).2.2 v hvb).1
    have hadd2 : c.add v = .ok ⟨setAdd c.objects v,
        c.indices.map (fun i => i.add (i.computeKey v) v)⟩ := by
      unfold Container.add
      rw [hp]
    have hwf1 := wf_container_add hw hadd2
    subst hadd
    have hdel := delete_of_mem hwf1
      (v := v) ((mem_setAdd c.objects v v).2 (Or.inr rfl))
    have hobj : setDelete (setAdd c.objects v) v = c.objects := by
      rw [setAdd_of_not_mem _ _ hv]
      exact setDelete_append_singleton _ _ hv
    have hindeq : (c.indices.map (fun i => i.add (i.computeKey v) v)).map
        (fun i => i.delete (i.computeKey v) v) = c.indices := by
      rw [List.map_map]
      have hfun : ∀ i ∈ c.indices,
          ((fun j : IndexKeeper T K => j.delete (j.computeKey v) v) ∘
            (fun i : IndexKeeper T K => i.add (i.computeKey v) v)) i = id i := by
        intro i hi
        cases i with
        | unique ck name access =>
          exact roundtrip_unique (huniqF _ hi ck name access rfl)
        | nonunique ck name access =>
          exact roundtrip_nonunique (hw.2 _ hi) hv
      rw [List.map_congr_left hfun, List.map_id]
    refine ⟨c, ?_, rfl, huniqF, hnonuF, ?_⟩
    · dsimp only at hdel
      rw [hobj, hindeq] at hdel
      exact hdel
    · have hprepw : ∀ i ∈ c.indices, i.prepareAdd (i.computeKey w) w = .ok i := by
        intro i hi
        cases i with
        | unique ck name access =>
          have hck : ck w = ck v := hkeys _ hi rfl
          have hk : mapHas access (ck w) = false := by
            rw [hck]
            exact huniqF _ hi ck name access rfl
          simp only [IndexKeeper.prepareAdd, IndexKeeper.computeKey]
          rw [if_neg (by simp [hk])]
        | nonunique ck name access => rfl
      exact ⟨⟨setAdd c.objects w, c.indices.map (fun i => i.add (i.computeKey w) w)⟩,
        by unfold Container.add; rw [prepareAddLoop_ok_of_forall hprepw]⟩

/-- Witness for C5 on a one-index container: add 1 under constant key 0,
delete it, then add 2 reusing key 0. -/
theorem claim_round_trip_witness :
    ∃ c2, (⟨[1], [IndexKeeper.unique (fun _ : Nat => 0) none [(0, 1)]]⟩ :
        Container Nat Nat).delete 1 = .ok (true, c2) ∧
      c2 = (⟨[], [IndexKeeper.unique (fun _ : Nat => 0) none []]⟩ : Container Nat Nat) ∧
      (∀ i ∈ (⟨[], [IndexKeeper.unique (fun _ : Nat => 0) none []]⟩ :
          Container Nat Nat).indices, ∀ ck name accessU, i = .unique ck name accessU →
        mapHas accessU (ck 1) = false) ∧
      (∀ i ∈ (⟨[], [IndexKeeper.unique (fun _ : Nat => 0) none []]⟩ :
          Container Nat Nat).indices, ∀ ck name accessN, i = .nonunique ck name accessN →
        ∀ b, mapGet accessN (ck 1) = some b → (1 : Nat) ∉ b) ∧
      ∃ c3, (⟨[], [IndexKeeper.unique (fun _ : Nat => 0) none []]⟩ :
        Container Nat Nat).add 2 = .ok c3 :=
  claim_round_trip (⟨[], [IndexKeeper.unique (fun _ : Nat => 0) none []]⟩ : Container Nat Nat)
    (by decide) 1 (by decide)
    (⟨[1], [IndexKeeper.unique (fun _ : Nat => 0) none [(0, 1)]]⟩ : Container Nat Nat)
    rfl 2 (by decide)

end ClaimRoundTrip

section ClaimCoverage

variable [DecidableEq T] [DecidableEq K]

/-- Backfilling a unique keeper over collision-free values appends exactly
one entry per value, in order. -/
theorem backfillLoop_unique_content {ck : T → K} {name : Option String}
    (l : List T) (m : List (K × T))
    (hkeys : l.Pairwise (fun a b => ck a ≠ ck b))
    (habs : ∀ v ∈ l, mapHas m (ck v) = false) :
    backfillLoop (IndexKeeper.unique ck name m) l =
      .ok (.unique ck name (m ++ l.map (fun v => (ck v, v)))) := by
  induction l generalizing m with
  | nil => simp [backfillLoop]
  | cons x xs ih =>
    have hx : mapHas m (ck x) = false := habs x (List.mem_cons_self x xs)
    have hstep : backfillLoop (IndexKeeper.unique ck name m) (x :: xs) =
        backfillLoop (IndexKeeper.unique ck name (mapSet m (ck x) x)) xs := by
      conv_lhs => unfold backfillLoop
      simp only [IndexKeeper.prepareAdd, IndexKeeper.computeKey]
      rw [if_neg (by simp [hx])]
      rfl
    rw [hstep, mapSet_of_not_has _ _ _ hx]
    have habs2 : ∀ v ∈ xs, mapHas (m ++ [(ck x, x)]) (ck v) = false := by
      intro v hv
      apply (mapHas_eq_false_iff _ _).2
      intro p hp
      rcases List.mem_append.1 hp with hpm | hps
      · exact (mapHas_eq_false_iff m (ck v)).1 (habs v (List.mem_cons_of_mem _ hv)) p hpm
      · obtain rfl : p = (ck x, x) := by simpa using hps
        exact (List.pairwise_cons.1 hkeys).1 v hv
    rw [ih _ (List.pairwise_cons.1 hkeys).2 habs2, List.append_assoc]
    rfl

/-- Backfilling a non-unique keeper over collision-free values appends one
singleton bucket per value, in order. -/
theorem backfillLoop_nonunique_content {ck : T → K} {name : Option String}
    (l : List T) (m : List (K × List T))
    (hkeys : l.Pairwise (fun a b => ck a ≠ ck b))
    (habs : ∀ v ∈ l, mapHas m (ck v) = false) :
    backfillLoop (IndexKeeper.nonunique ck name m) l =
      .ok (.nonunique ck name (m ++ l.map (fun v => (ck v, [v])))) := by
  induction l generalizing m with
  | nil => simp [backfillLoop]
  | cons x xs ih =>
    have hx : mapHas m (ck x) = false := habs x (List.mem_cons_self x xs)
    have hget : mapGet m (ck x) = none := (mapGet_eq_none_iff _ _).2 hx
    have haddeq : (IndexKeeper.nonunique ck name m).add (ck x) x =
        .nonunique ck name (mapSet m (ck x) [x]) := by
      simp only [IndexKeeper.add, hget, Option.getD_none]
      rw [setAdd_of_not_mem _ _ (by simp), List.nil_append]
    have hstep : backfillLoop (IndexKeeper.nonunique ck name m) (x :: xs) =
        backfillLoop (IndexKeeper.nonunique ck name (mapSet m (ck x) [x])) xs := by
      conv_lhs => unfold backfillLoop
      simp only [IndexKeeper.prepareAdd]
      rw [show ((IndexKeeper.nonunique ck name m).computeKey x) = ck x from rfl, haddeq]
    rw [hstep, mapSet_of_not_has _ _ _ hx]
    have habs2 : ∀ v ∈ xs, mapHas (m ++ [(ck x, [x])]) (ck v) = false := by
      intro v hv
      apply (mapHas_eq_false_iff _ _).2
      intro p hp
      rcases List.mem_append.1 hp with hpm | hps
      · exact (mapHas_eq_false_iff m (ck v)).1 (habs v (List.mem_cons_of_mem _ hv)) p hpm
      · obtain rfl : p = (ck x, [x]) := by simpa using hps
        exact (List.pairwise_cons.1 hkeys).1 v hv
    rw [ih _ (List.pairwise_cons.1 hkeys).2 habs2, List.append_assoc]
    rfl

/-- Adding values one by one to a single-keeper container drives the keeper
through exactly the backfill fold. -/
theorem addAll_single (l : List T) (objs : List T) (i i1 : IndexKeeper T K)
    (hb : backfillLoop i l = .ok i1) :
    Container.addAll ⟨objs, [i]⟩ l = .ok ⟨List.foldl setAdd objs l, [i1]⟩ := by
  induction l generalizing objs i with
  | nil =>
    unfold backfillLoop at hb
    injection hb with hb
    subst hb
    simp [Container.addAll]
  | cons x xs ih =>
    unfold backfillLoop at hb
    cases hp : i.prepareAdd (i.computeKey x) x with
    | error e =>
      rw [hp] at hb
      exact Except.noConfusion hb
    | ok i2 =>
      rw [hp] at hb
      rw [prepareAdd_ok_eq hp] at hb
      have haddx : (⟨objs, [i]⟩ : Container T K).add x =
          .ok ⟨setAdd objs x, [i.add (i.computeKey x) x]⟩ := by
        unfold Container.add
        rw [prepareAddLoop_ok_of_forall (fun j hj => by
          obtain rfl : j = i := by simpa using hj
          rw [hp, prepareAdd_ok_eq hp])]
        rfl
      conv_lhs => unfold Container.addAll
      rw [haddx]
      exact ih (setAdd objs x) (i.add (i.computeKey x) x) hb

/-- Folding `setAdd` over pairwise fresh values appends them. -/
theorem foldl_setAdd_append (p l : List T) (h : (p ++ l).Nodup) :
    List.foldl setAdd p l = p ++ l := by
  induction l generalizing p with
  | nil => simp
  | cons x xs ih =>
    have hx : x ∉ p := by
      rw [List.nodup_append] at h
      exact fun hxp => h.2.2 hxp (List.mem_cons_self x xs)
    rw [List.foldl_cons, setAdd_of_not_mem _ _ hx]
    have hres := ih (p ++ [x]) (by rw [List.append_assoc]; simpa using h)
    rw [hres, List.append_assoc]
    simp

/-- C6 — Coverage after backfill and order-independence of attach: for a
container already holding the duplicate-free, collision-free values `l` (in
insertion order), attaching a fresh unique (resp. non-unique) index
succeeds and its backing mapping holds exactly one entry (resp. one
singleton bucket) per value under its computed key; and the same mapping
results from attaching the index to the empty container and then adding
the same values in order. -/
theorem claim_backfill_coverage (c : Container T K) (ck : T → K)
    (name : Option String) (l : List T) (hobj : c.objects = l) (hnd : l.Nodup)
    (hkeys : l.Pairwise (fun a b => ck a ≠ ck b)) :
    (c.use (IndexKeeper.unique ck name []) =
        .ok { c with indices := c.indices ++
          [.unique ck name (l.map (fun v => (ck v, v)))] } ∧
      Container.empty.use (IndexKeeper.unique ck name []) =
        .ok (⟨[], [IndexKeeper.unique ck name []]⟩ : Container T K) ∧
      Container.addAll ⟨[], [IndexKeeper.unique ck name []]⟩ l =
        .ok ⟨l, [.unique ck name (l.map (fun v => (ck v, v)))]⟩) ∧
    (c.use (IndexKeeper.nonunique ck name []) =
        .ok { c with indices := c.indices ++
          [.nonunique ck name (l.map (fun v => (ck v, [v])))] } ∧
      Container.empty.use (IndexKeeper.nonunique ck name []) =
        .ok (⟨[], [IndexKeeper.nonunique ck name []]⟩ : Container T K) ∧
      Container.addAll ⟨[], [IndexKeeper.nonunique ck name []]⟩ l =
        .ok ⟨l, [.nonunique ck name (l.map (fun v => (ck v, [v])))]⟩) := by
  have habs0u : ∀ v ∈ l, mapHas ([] : List (K × T)) (ck v) = false := fun v hv => rfl
  have habs0n : ∀ v ∈ l, mapHas ([] : List (K × List T)) (ck v) = false := fun v hv => rfl
  have hcu : backfillLoop (IndexKeeper.unique ck name []) l =
      .ok (.unique ck name ([] ++ l.map (fun v => (ck v, v)))) :=
    backfillLoop_unique_content l [] hkeys habs0u
  have hcn : backfillLoop (IndexKeeper.nonunique ck name []) l =
      .ok (.nonunique ck name ([] ++ l.map (fun v => (ck v, [v])))) :=
    backfillLoop_nonunique_content l [] hkeys habs0n
  rw [List.nil_append] at hcu hcn
  have hfold : List.foldl setAdd ([] : List T) l = l := by
    have := foldl_setAdd_append [] l (by simpa using hnd)
    simpa using this
  refine ⟨⟨?_, rfl, ?_⟩, ⟨?_, rfl, ?_⟩⟩
  · unfold Container.use
    rw [hobj, hcu]
  · have := addAll_single l [] _ _ hcu
    rw [hfold] at this
    exact this
  · unfold Container.use
    rw [hobj, hcn]
  · have := addAll_single l [] _ _ hcn
    rw [hfold] at this
    exact this

/-- Witness for C6 with values 1, 2 indexed by themselves. -/
theorem claim_backfill_coverage_witness :
    ((⟨[1, 2], []⟩ : Container Nat Nat).use
        (IndexKeeper.unique (fun n : Nat => n) none []) =
        .ok ⟨[1, 2], [.unique (fun n : Nat => n) none [(1, 1), (2, 2)]]⟩ ∧
      Container.empty.use (IndexKeeper.unique (fun n : Nat => n) none []) =
        .ok (⟨[], [IndexKeeper.unique (fun n : Nat => n) none []]⟩ : Container Nat Nat) ∧
      Container.addAll ⟨[], [IndexKeeper.unique (fun n : Nat => n) none []]⟩ [1, 2] =
        .ok ⟨[1, 2], [.unique (fun n : Nat => n) none [(1, 1), (2, 2)]]⟩) ∧
    ((⟨[1, 2], []⟩ : Container Nat Nat).use
        (IndexKeeper.nonunique (fun n : Nat => n) none []) =
        .ok ⟨[1, 2], [.nonunique (fun n : Nat => n) none [(1, [1]), (2, [2])]]⟩ ∧
      Container.empty.use (IndexKeeper.nonunique (fun n : Nat => n) none []) =
        .ok (⟨[], [IndexKeeper.nonunique (fun n : Nat => n) none []]⟩ : Container Nat Nat) ∧
      Container.addAll ⟨[], [IndexKeeper.nonunique (fun n : Nat => n) none []]⟩ [1, 2] =
        .ok ⟨[1, 2], [.nonunique (fun n : Nat => n) none [(1, [1]), (2, [2])]]⟩) :=
  claim_backfill_coverage (⟨[1, 2], []⟩ : Container Nat Nat) (fun n : Nat => n) none
    [1, 2] rfl (by decide) (by decide)

end ClaimCoverage

end MultiIndex
